import Mathlib

/-!
Verification of the AgileRL evolutionary-optimization core.

This file shallowly embeds the selection-and-mutation engine of the
repository:

* `agilerl/networks/base.py` — `EvolvableModule.preserve_parameters`,
  `EvolvableModule.shrink_preserve_parameters`,
  `EvolvableModule.get_mutation_probs` and the registration of LAYER- and
  NODE-class mutation methods;
* `agilerl/hpo/tournament.py` — `TournamentSelection` (constructor,
  `_tournament`, `_elitism`, `select`).

Tensors are modelled as a shape (a list of dimension sizes) together with a
total valuation of multi-indices; float values are modelled as exact
rationals.  Randomness (`np.random`) is made explicit: every function that
draws random numbers in the source instead receives the drawn values as an
argument.  Python exceptions are modelled with `Option`/`Except`.
-/

/-- A (PyTorch) tensor: a shape together with the value stored at each
multi-index.  Only indices that are componentwise within `shape` are
meaningful; the valuation is total to keep the embedding simple. -/
structure Tensor where
  shape : List Nat
  data : List Nat → ℚ

instance : Inhabited Tensor := ⟨⟨[], fun _ => 0⟩⟩

/-- A network's `named_parameters()`: an association list from parameter
name to tensor (PyTorch yields each name once). -/
abbrev Net := List (String × Tensor)

/-- Lookup in `dict(old_net.named_parameters())`. -/
def findParam (net : Net) (key : String) : Option Tensor :=
  (net.find? (fun p => p.1 == key)).map Prod.snd

/-- Does the character list begin with `norm`? -/
def charsStartWithNorm : List Char → Bool
  | 'n' :: 'o' :: 'r' :: 'm' :: _ => true
  | _ => false

/-- Does the character list contain `norm` as a contiguous substring? -/
def charsContainNorm : List Char → Bool
  | [] => false
  | c :: rest => charsStartWithNorm (c :: rest) || charsContainNorm rest

/-- Python's `"norm" in key` substring test. -/
def containsNorm (key : String) : Bool :=
  charsContainNorm key.data

/-- The source's slicing index for `preserve_parameters`:
`tuple(slice(0, min(o, n)) for o, n in zip(old_size, new_size))`.
A multi-index `idx` lies inside the slice when along every dimension `d`
covered by the `zip` it is below `min(old_size_d, new_size_d)`. -/
def sliceCond (oldShape newShape idx : List Nat) : Bool :=
  (List.range (min oldShape.length newShape.length)).all fun d =>
    idx.getD d 0 < min (oldShape.getD d 0) (newShape.getD d 0)

/-- One step of `EvolvableModule.preserve_parameters` for a parameter
present in both networks: identical sizes copy the old tensor verbatim
(`param.data = old_param.data`), differing sizes copy the overlap slice
unless the name contains `"norm"`. -/
def preserveParam (key : String) (old_param param : Tensor) : Tensor :=
  if old_param.shape = param.shape then
    { shape := param.shape, data := old_param.data }
  else if containsNorm key then param
  else
    { shape := param.shape
      data := fun idx =>
        if sliceCond old_param.shape param.shape idx then old_param.data idx
        else param.data idx }

/-- Embeds `EvolvableModule.preserve_parameters`: returns the new network with,
for every named parameter also present in the old network, the values
transplanted per `preserveParam`.  (For parameter pairs of equal rank the
PyTorch slice assignment always succeeds, which is the domain of the
theorems below; rank-mismatched pairs — which cannot arise between two
builds of the same evolvable module — are carried by the same slicing
semantics.) -/
def preserve_parameters (old_net new_net : Net) : Net :=
  new_net.map fun kp =>
    match findParam old_net kp.1 with
    | none => kp
    | some old_param => (kp.1, preserveParam kp.1 old_param kp.2)

/-- Index adjustment for a broadcast source in a PyTorch slice assignment:
a source dimension of size 1 beyond the first two sliced dimensions is
broadcast, i.e. read at position 0. -/
def broadcastIdx (oldShape idx : List Nat) : List Nat :=
  idx.mapIdx fun d v => if 2 ≤ d ∧ oldShape.getD d 0 = 1 then 0 else v

/-- One step of `EvolvableModule.shrink_preserve_parameters` for a
parameter present in both networks.  The source slices at most the first
two dimensions: rank 1 runs `param.data[:min_0] = old[:min_0]`, higher
ranks run `param.data[:min_0, :min_1] = old[:min_0, :min_1]`.  `none`
models a raised exception: `old_size[0]`/`old_size[1]` (`new_size`
likewise) raise `IndexError` on tensors of too small a rank, and the slice
assignment raises a `RuntimeError` when a trailing source dimension
(beyond the two sliced ones) is neither equal to the target dimension nor
equal to 1 (the broadcast case).  Rank-mismatched parameter pairs, which
cannot arise between two builds of the same evolvable module, are
modelled as errors. -/
def shrinkParam (key : String) (old_param param : Tensor) : Option Tensor :=
  if old_param.shape = param.shape then
    some { shape := param.shape, data := old_param.data }
  else if containsNorm key then some param
  else if old_param.shape.length = param.shape.length ∧ 1 ≤ param.shape.length then
    if param.shape.length = 1 then
      some { shape := param.shape
             data := fun idx =>
               if idx.getD 0 0 < min (old_param.shape.getD 0 0) (param.shape.getD 0 0) then
                 old_param.data idx
               else param.data idx }
    else if (List.range param.shape.length).all
        (fun d => d < 2 ∨ old_param.shape.getD d 0 = param.shape.getD d 0 ∨
          old_param.shape.getD d 0 = 1) then
      some { shape := param.shape
             data := fun idx =>
               if idx.getD 0 0 < min (old_param.shape.getD 0 0) (param.shape.getD 0 0) ∧
                  idx.getD 1 0 < min (old_param.shape.getD 1 0) (param.shape.getD 1 0) then
                 old_param.data (broadcastIdx old_param.shape idx)
               else param.data idx }
    else none
  else none

/-- Embeds `EvolvableModule.shrink_preserve_parameters`; `none` models a raised
exception on some parameter. -/
def shrink_preserve_parameters (old_net new_net : Net) : Option Net :=
  new_net.mapM fun kp =>
    match findParam old_net kp.1 with
    | none => some kp
    | some old_param => (shrinkParam kp.1 old_param kp.2).map fun t => (kp.1, t)

/-- The overlap box of two shapes: along every dimension of the new shape
the index is below `min(old_size_d, new_size_d)`.  For equal-rank shapes
this coincides with `sliceCond`. -/
def inOverlap (oldShape newShape idx : List Nat) : Bool :=
  (List.range newShape.length).all fun d =>
    idx.getD d 0 < min (oldShape.getD d 0) (newShape.getD d 0)

/-! ### Tournament selection (`agilerl/hpo/tournament.py`) -/

/-- An individual of the population, as far as selection observes it: a
unique integer `index` and an append-only `fitness` history. -/
structure Individual where
  index : Nat
  fitness : List ℚ
deriving Inhabited, DecidableEq

/-- Embeds `EvolvableAlgorithm.clone()` with no argument: a deep copy keeping the
individual's index and fitness history. -/
def clone (ind : Individual) : Individual := ind

/-- Embeds `EvolvableAlgorithm.clone(index)`: a deep copy with a freshly assigned
index. -/
def cloneWithIndex (ind : Individual) (i : Nat) : Individual :=
  { ind with index := i }

/-- A Python value passed for the `elitism` argument: either an actual
`bool` or any other object (`isinstance(elitism, bool)` fails). -/
inductive PyVal where
  | bool (b : Bool)
  | other
deriving DecidableEq

def PyVal.isBool : PyVal → Bool
  | .bool _ => true
  | .other => false

/-- The configuration stored by `TournamentSelection`. -/
structure TournamentSelection where
  tournament_size : ℤ
  elitism : Bool
  population_size : ℤ
  eval_loop : ℤ
deriving DecidableEq

/-- Embeds `TournamentSelection.__init__`: the four assertions, in source order;
on success the arguments are stored unchanged. -/
def TournamentSelection.init (tournament_size : ℤ) (elitism : PyVal)
    (population_size eval_loop : ℤ) : Except String TournamentSelection :=
  if ¬ tournament_size > 0 then
    .error "Tournament size must be greater than zero."
  else
    match elitism with
    | .other => .error "Elitism must be boolean value True or False."
    | .bool b =>
      if ¬ population_size > 0 then
        .error "Population size must be greater than zero."
      else if ¬ eval_loop > 0 then
        .error "Evo step must be greater than zero."
      else
        .ok ⟨tournament_size, b, population_size, eval_loop⟩

/-- Embeds `np.mean(indi.fitness[-eval_loop:])`: the exact mean of the last
`eval_loop` fitness entries (all of them when fewer exist). -/
def meanLast (eval_loop : ℤ) (fitness : List ℚ) : ℚ :=
  let tail := fitness.drop (fitness.length - eval_loop.toNat)
  tail.sum / tail.length

/-- The comparison key of `np.argsort` on the list `l`: sort positions by
value, breaking ties by position (a stable argsort; `np.argsort`'s
tie-break is unspecified, and no theorem below depends on it). -/
def keyLe {α : Type} [LinearOrder α] [Inhabited α] (l : List α) (i j : Nat) : Bool :=
  decide (l.getD i default < l.getD j default ∨
    (l.getD i default = l.getD j default ∧ i ≤ j))

/-- Embeds `np.argsort(l)`: the positions `0, …, len(l) − 1` sorted by the value
stored at them. -/
def argsort {α : Type} [LinearOrder α] [Inhabited α] (l : List α) : List Nat :=
  (List.range l.length).mergeSort (keyLe l)

/-- Embeds `np.argmax(l)`: the first position attaining the maximum value. -/
def argmaxIdx {α : Type} [LinearOrder α] [Inhabited α] : List α → Nat
  | [] => 0
  | [_] => 0
  | a :: b :: rest =>
    let m := argmaxIdx (b :: rest)
    if a < (b :: rest).getD m default then m + 1 else 0

/-- Embeds `max([ind.index for ind in population])` (for nonempty populations). -/
def maxId (population : List Individual) : Nat :=
  (population.map Individual.index).foldr max 0

/-- Embeds `TournamentSelection._tournament`.  The source draws
`selection = np.random.randint(0, len(fitness_values), size=tournament_size)`;
here the drawn vector is the explicit argument `selection`.  The winner is
the drawn position whose fitness value is largest (first such draw on
ties, per `np.argmax`). -/
def TournamentSelection._tournament {α : Type} [LinearOrder α] [Inhabited α]
    (_ts : TournamentSelection) (fitness_values : List α) (selection : List Nat) : Nat :=
  let selection_values := selection.map fun i => fitness_values.getD i default
  selection.getD (argmaxIdx selection_values) 0

/-- Embeds `TournamentSelection._elitism`: score each individual by the mean of
its last `eval_loop` fitness values, rank by double argsort, return a
clone of the individual at `np.argsort(rank)[-1]` together with the rank
array and the maximal existing index. -/
def TournamentSelection._elitism (ts : TournamentSelection)
    (population : List Individual) : Individual × List Nat × Nat :=
  let last_fitness := population.map fun indi => meanLast ts.eval_loop indi.fitness
  let rank := argsort (argsort last_fitness)
  let max_id := maxId population
  let model := population.getD ((argsort rank).getLastD 0) default
  (clone model, rank, max_id)

/-- Embeds `TournamentSelection.select`.  `draws k` is the random index vector
(`np.random.randint(0, len(population), size=tournament_size)`) consumed
by the `k`-th tournament of the offspring loop.  The `k`-th offspring is
cloned with index `max_id + k + 1` (`max_id += 1` precedes the clone). -/
def TournamentSelection.select (ts : TournamentSelection)
    (population : List Individual) (draws : Nat → List Nat) :
    Individual × List Individual :=
  let er := ts._elitism population
  let elite := er.1
  let rank := er.2.1
  let max_id := er.2.2
  let base : List Individual := if ts.elitism then [clone elite] else []
  let selection_size : Nat :=
    if ts.elitism then ts.population_size.toNat - 1 else ts.population_size.toNat
  let offspring := (List.range selection_size).map fun k =>
    cloneWithIndex (population.getD (ts._tournament rank (draws k)) default)
      (max_id + k + 1)
  (elite, base ++ offspring)

/-! ### Evolvable modules (`agilerl/networks/base.py`) -/

/-- The two classes of structural mutation methods. -/
inductive MutationType where
  | layer
  | node
deriving DecidableEq

/-- An `EvolvableModule` as `get_mutation_probs` observes it: the mutation
methods registered at construction, partitioned by class.
`_mutation_methods` lists the LAYER-class methods first, then the
NODE-class ones, exactly as `__init__` concatenates the two
dictionaries. -/
structure EvolvableModule where
  layer_mutation_methods : List String
  node_mutation_methods : List String

/-- The list `self._mutation_methods` paired with each method's registered
`_mutation_type`. -/
def EvolvableModule.mutation_methods (m : EvolvableModule) :
    List (String × MutationType) :=
  m.layer_mutation_methods.map (fun s => (s, MutationType.layer)) ++
    m.node_mutation_methods.map (fun s => (s, MutationType.node))

/-- Embeds `EvolvableModule.get_mutation_probs`: one probability per registered
mutation method, `new_layer_prob / #LAYER` for a LAYER-class method and
`(1 − new_layer_prob) / #NODE` for a NODE-class one.  Floats are modelled
as exact rationals. -/
def EvolvableModule.get_mutation_probs (m : EvolvableModule)
    (new_layer_prob : ℚ) : List ℚ :=
  let num_layer_fns := m.layer_mutation_methods.length
  let num_node_fns := m.node_mutation_methods.length
  m.mutation_methods.map fun fn =>
    match fn.2 with
    | MutationType.layer => new_layer_prob / num_layer_fns
    | MutationType.node => (1 - new_layer_prob) / num_node_fns

/-- Modelled from the spec: the activation mutation of the `Mutations`
engine (`agilerl/hpo/mutation.py`, whose body is not among the provided
sources) picks a new activation name uniformly from
`activation_selection`, excluding the network's current activation unless
only one candidate exists.  `r` is the uniform random draw selecting a
position in the remaining pool. -/
def pickNewActivation (activation_selection : List String)
    (current : String) (r : Nat) : String :=
  let pool :=
    if 1 < activation_selection.length then
      activation_selection.filter (fun a => a ≠ current)
    else activation_selection
  pool.getD (r % pool.length) current

/-! ### Concrete example networks -/

/-- A network whose single parameter `"w"` has rank 3. -/
def rank3OldNet : Net := [("w", ⟨[1, 1, 3], fun _ => 1⟩)]

/-- A rebuild of `rank3OldNet` shrinking the trailing dimension. -/
def rank3NewNet : Net := [("w", ⟨[1, 1, 2], fun _ => 2⟩)]

/-- A network with a single rank-1 parameter, used to witness C2. -/
def rank1OldNet : Net := [("w", ⟨[3], fun _ => 1⟩)]

/-- A rebuild of `rank1OldNet` shrinking the parameter to shape `[2]`. -/
def rank1NewNet : Net := [("w", ⟨[2], fun _ => 2⟩)]

/-- The successful result of the shrink-oriented transplant on the
rank-1 example. -/
def rank1ShrinkRes : Net :=
  (shrink_preserve_parameters rank1OldNet rank1NewNet).getD []

/-! ### Helper lemmas: argmax -/

theorem argmaxIdx_lt_length {α : Type} [LinearOrder α] [Inhabited α] :
    ∀ (l : List α), l ≠ [] → argmaxIdx l < l.length
  | [], h => absurd rfl h
  | [_], _ => by simp [argmaxIdx]
  | a :: b :: rest, _ => by
    have ih := argmaxIdx_lt_length (b :: rest) (by simp)
    simp only [argmaxIdx]
    split
    · simpa using ih
    · simp

theorem argmaxIdx_is_max {α : Type} [LinearOrder α] [Inhabited α] :
    ∀ (l : List α) (j : Nat), j < l.length →
      l.getD j default ≤ l.getD (argmaxIdx l) default
  | [], _, h => by simp at h
  | [_], j, h => by
    match j with
    | 0 => simp [argmaxIdx]
    | j' + 1 => simp at h
  | a :: b :: rest, j, h => by
    have ih := fun j hj => argmaxIdx_is_max (b :: rest) j hj
    by_cases hlt : a < (b :: rest).getD (argmaxIdx (b :: rest)) default
    · rw [show argmaxIdx (a :: b :: rest) = argmaxIdx (b :: rest) + 1 from by
        simp only [argmaxIdx]; exact if_pos hlt]
      rw [List.getD_cons_succ]
      match j with
      | 0 => exact le_of_lt hlt
      | j' + 1 =>
        rw [List.getD_cons_succ]
        exact ih j' (by simpa using h)
    · rw [show argmaxIdx (a :: b :: rest) = 0 from by
        simp only [argmaxIdx]; exact if_neg hlt]
      rw [List.getD_cons_zero]
      match j with
      | 0 => exact le_refl _
      | j' + 1 =>
        rw [List.getD_cons_succ]
        exact le_trans (ih j' (by simpa using h)) (le_of_not_lt hlt)

theorem argmaxIdx_first {α : Type} [LinearOrder α] [Inhabited α] :
    ∀ (l : List α) (j : Nat), j < argmaxIdx l →
      l.getD j default < l.getD (argmaxIdx l) default
  | [], j, h => by simp [argmaxIdx] at h
  | [_], j, h => by simp [argmaxIdx] at h
  | a :: b :: rest, j, h => by
    have ih := fun j hj => argmaxIdx_first (b :: rest) j hj
    by_cases hlt : a < (b :: rest).getD (argmaxIdx (b :: rest)) default
    · have heq : argmaxIdx (a :: b :: rest) = argmaxIdx (b :: rest) + 1 := by
        simp only [argmaxIdx]; exact if_pos hlt
      rw [heq] at h ⊢
      rw [List.getD_cons_succ]
      match j with
      | 0 => exact hlt
      | j' + 1 =>
        rw [List.getD_cons_succ]
        exact ih j' (by omega)
    · have heq : argmaxIdx (a :: b :: rest) = 0 := by
        simp only [argmaxIdx]; exact if_neg hlt
      rw [heq] at h
      omega

/-! ### Helper lemmas: argsort -/

theorem keyLe_trans {α : Type} [LinearOrder α] [Inhabited α] (l : List α)
    (a b c : Nat) (h1 : keyLe l a b) (h2 : keyLe l b c) : keyLe l a c := by
  simp only [keyLe, decide_eq_true_eq] at h1 h2 ⊢
  rcases h1 with h1 | ⟨h1e, h1i⟩ <;> rcases h2 with h2 | ⟨h2e, h2i⟩
  · exact Or.inl (lt_trans h1 h2)
  · exact Or.inl (h2e ▸ h1)
  · exact Or.inl (h1e ▸ h2)
  · exact Or.inr ⟨h1e.trans h2e, le_trans h1i h2i⟩

theorem keyLe_total {α : Type} [LinearOrder α] [Inhabited α] (l : List α)
    (a b : Nat) : keyLe l a b || keyLe l b a := by
  simp only [keyLe, Bool.or_eq_true, decide_eq_true_eq]
  rcases lt_trichotomy (l.getD a default) (l.getD b default) with h | h | h
  · exact Or.inl (Or.inl h)
  · rcases Nat.le_total a b with hi | hi
    · exact Or.inl (Or.inr ⟨h, hi⟩)
    · exact Or.inr (Or.inr ⟨h.symm, hi⟩)
  · exact Or.inr (Or.inl h)

theorem argsort_perm {α : Type} [LinearOrder α] [Inhabited α] (l : List α) :
    List.Perm (argsort l) (List.range l.length) :=
  List.mergeSort_perm _ _

theorem length_argsort {α : Type} [LinearOrder α] [Inhabited α] (l : List α) :
    (argsort l).length = l.length := by
  simpa using (argsort_perm l).length_eq

theorem argsort_sorted {α : Type} [LinearOrder α] [Inhabited α] (l : List α) :
    (argsort l).Pairwise (fun i j => keyLe l i j = true) := by
  simpa using @List.sorted_mergeSort _ (keyLe l)
    (fun a b c => keyLe_trans l a b c) (fun a b => keyLe_total l a b)
    (List.range l.length)

theorem mem_argsort {α : Type} [LinearOrder α] [Inhabited α] (l : List α)
    (j : Nat) : j ∈ argsort l ↔ j < l.length := by
  rw [(argsort_perm l).mem_iff, List.mem_range]

theorem argsort_getD_lt {α : Type} [LinearOrder α] [Inhabited α] (l : List α)
    (k : Nat) (hk : k < l.length) : (argsort l).getD k 0 < l.length := by
  have hk' : k < (argsort l).length := by rw [length_argsort]; exact hk
  rw [List.getD_eq_getElem _ _ hk']
  exact (mem_argsort l _).mp (List.getElem_mem hk')

theorem argsort_mono {α : Type} [LinearOrder α] [Inhabited α] (l : List α)
    (a b : Nat) (hab : a ≤ b) (hb : b < l.length) :
    l.getD ((argsort l).getD a 0) default ≤ l.getD ((argsort l).getD b 0) default := by
  rcases Nat.lt_or_ge a b with hlt | hge
  · have hb' : b < (argsort l).length := by rw [length_argsort]; exact hb
    have ha' : a < (argsort l).length := lt_trans (by omega) hb'
    have hpw := List.pairwise_iff_getElem.mp (argsort_sorted l) a b ha' hb' hlt
    rw [List.getD_eq_getElem _ _ ha', List.getD_eq_getElem _ _ hb']
    simp only [keyLe, decide_eq_true_eq] at hpw
    rcases hpw with h | ⟨he, _⟩
    · exact le_of_lt h
    · exact le_of_eq he
  · have hab' : a = b := le_antisymm hab hge
    rw [hab']

theorem argsort_surj {α : Type} [LinearOrder α] [Inhabited α] (l : List α)
    (j : Nat) (hj : j < l.length) :
    ∃ a, a < l.length ∧ (argsort l).getD a 0 = j := by
  have hmem : j ∈ argsort l := (mem_argsort l j).mpr hj
  obtain ⟨a, ha, hja⟩ := List.getElem_of_mem hmem
  refine ⟨a, by rw [← length_argsort l]; exact ha, ?_⟩
  rw [List.getD_eq_getElem _ _ ha]
  exact hja

theorem argsort_inverse (p : List Nat) (hp : List.Perm p (List.range p.length))
    (k : Nat) (hk : k < p.length) :
    p.getD ((argsort p).getD k 0) 0 = k := by
  set B := argsort p with hB
  set M := B.map (fun i => p.getD i 0) with hM
  have hmapr : (List.range p.length).map (fun i => p.getD i 0) = p := by
    apply List.ext_getElem
    · simp
    · intro n h1 h2
      simp only [List.getElem_map, List.getElem_range]
      exact List.getD_eq_getElem p 0 h2
  have hMp : List.Perm M p := by
    have h1 : List.Perm M ((List.range p.length).map (fun i => p.getD i 0)) :=
      (argsort_perm p).map _
    rw [hmapr] at h1
    exact h1
  have hMr : List.Perm M (List.range p.length) := hMp.trans hp
  have hMsorted : M.Pairwise (· ≤ ·) := by
    rw [hM, List.pairwise_map]
    refine (argsort_sorted p).imp ?_
    intro i j hij
    simp only [keyLe, decide_eq_true_eq] at hij
    rcases hij with h | ⟨he, _⟩
    · exact le_of_lt h
    · exact le_of_eq he
  have hMeq : M = List.range p.length :=
    List.eq_of_perm_of_sorted hMr hMsorted (List.pairwise_le_range p.length)
  have hkB : k < B.length := by rw [hB, length_argsort]; exact hk
  have hkM : k < M.length := by rw [hM, List.length_map]; exact hkB
  have h1 : M[k] = p.getD (B.getD k 0) 0 := by
    simp only [hM, List.getElem_map]
    rw [List.getD_eq_getElem _ _ hkB]
  have h2 : M[k] = k := by
    simp [hMeq]
  rw [← h1, h2]

/-! ### Generic getD helpers -/

theorem getD_map_of_lt {α β : Type} (f : α → β) (l : List α) (k : Nat)
    (hk : k < l.length) (d : α) (d' : β) :
    (l.map f).getD k d' = f (l.getD k d) := by
  have hk' : k < (l.map f).length := by simpa using hk
  rw [List.getD_eq_getElem _ _ hk', List.getD_eq_getElem _ _ hk]
  simp

theorem sum_map_const_rat {α : Type} (l : List α) (c : ℚ) :
    (l.map (fun _ => c)).sum = l.length * c := by
  induction l with
  | nil => simp
  | cons a t ih =>
    simp only [List.map_cons, List.sum_cons, ih, List.length_cons]
    push_cast
    ring

/-! ### Claim C7 -/

/-- C7: the `TournamentSelection` constructor raises an assertion failure
if and only if `tournament_size ≤ 0`, or `elitism` is not a boolean, or
`population_size ≤ 0`, or `eval_loop ≤ 0`; for all arguments satisfying
these preconditions it constructs successfully and stores the arguments
without coercion. -/
theorem init_asserts_iff (a : ℤ) (e : PyVal) (p l : ℤ) :
    ((∃ ts, TournamentSelection.init a e p l = .ok ts) ↔
      0 < a ∧ e.isBool = true ∧ 0 < p ∧ 0 < l) ∧
    ∀ b : Bool, 0 < a → 0 < p → 0 < l →
      TournamentSelection.init a (.bool b) p l =
        .ok ⟨a, b, p, l⟩ := by
  constructor
  · cases e <;>
      simp only [TournamentSelection.init, PyVal.isBool] <;>
      split_ifs <;>
      simp_all
  · intro b ha hp hl
    simp only [TournamentSelection.init]
    split_ifs <;> simp_all

/-- Witness for C7 at concrete arguments. -/
theorem init_asserts_iff_witness :
    TournamentSelection.init 2 (.bool true) 4 1 = .ok ⟨2, true, 4, 1⟩ :=
  (init_asserts_iff 2 (.bool true) 4 1).2 true (by decide) (by decide) (by decide)

/-! ### Claim C8 -/

/-- C8: for every `EvolvableModule` with at least one LAYER-class and at
least one NODE-class registered mutation method and every
`new_layer_prob`, `get_mutation_probs` returns one probability per
registered method: `new_layer_prob / #LAYER` for each LAYER-class method
and `(1 − new_layer_prob) / #NODE` for each NODE-class one. -/
theorem get_mutation_probs_values (m : EvolvableModule) (p : ℚ)
    (hL : 0 < m.layer_mutation_methods.length)
    (hN : 0 < m.node_mutation_methods.length) :
    (m.get_mutation_probs p).length = m.mutation_methods.length ∧
    ∀ k, k < m.mutation_methods.length →
      (m.get_mutation_probs p).getD k 0 =
        if (m.mutation_methods.getD k ("", MutationType.layer)).2 = MutationType.layer
        then p / m.layer_mutation_methods.length
        else (1 - p) / m.node_mutation_methods.length := by
  constructor
  · simp [EvolvableModule.get_mutation_probs]
  · intro k hk
    rw [EvolvableModule.get_mutation_probs,
      getD_map_of_lt _ _ k hk ("", MutationType.layer) 0]
    rcases hmt : (m.mutation_methods.getD k ("", MutationType.layer)).2 with _ | _ <;>
      simp [hmt]

/-- Witness for C8 at a concrete module. -/
theorem get_mutation_probs_values_witness :
    (EvolvableModule.get_mutation_probs ⟨["add_layer", "remove_layer"], ["add_node"]⟩
        (1/4)).length = 3 ∧
    (EvolvableModule.get_mutation_probs ⟨["add_layer", "remove_layer"], ["add_node"]⟩
        (1/4)).getD 2 0 = (1 - 1/4) / 1 := by
  have h := get_mutation_probs_values ⟨["add_layer", "remove_layer"], ["add_node"]⟩
    (1/4) (by decide) (by decide)
  refine ⟨?_, ?_⟩
  · rw [h.1]
    rfl
  · rw [h.2 2 (by decide)]
    rw [if_neg (by decide)]
    norm_num

/-! ### Claim C10 -/

/-- C10: with both method classes non-empty the probabilities returned by
`get_mutation_probs` sum exactly to 1 (in exact rational arithmetic); with
one class empty they instead sum to `new_layer_prob` (no NODE-class
methods) or `1 − new_layer_prob` (no LAYER-class methods), so they do not
form a probability distribution. -/
theorem get_mutation_probs_sum (m : EvolvableModule) (p : ℚ)
    (h0 : 0 ≤ p) (h1 : p ≤ 1) :
    (m.get_mutation_probs p).sum =
      (if m.layer_mutation_methods.length = 0 then 0 else p) +
      (if m.node_mutation_methods.length = 0 then 0 else 1 - p) := by
  rw [EvolvableModule.get_mutation_probs, EvolvableModule.mutation_methods]
  rw [List.map_append, List.map_map, List.map_map, List.sum_append]
  have hlayer : (m.layer_mutation_methods.map
      ((fun fn : String × MutationType =>
        match fn.2 with
        | MutationType.layer => p / (m.layer_mutation_methods.length : ℚ)
        | MutationType.node => (1 - p) / (m.node_mutation_methods.length : ℚ)) ∘
        fun s => (s, MutationType.layer))).sum =
      m.layer_mutation_methods.length * (p / m.layer_mutation_methods.length) := by
    exact sum_map_const_rat _ _
  have hnode : (m.node_mutation_methods.map
      ((fun fn : String × MutationType =>
        match fn.2 with
        | MutationType.layer => p / (m.layer_mutation_methods.length : ℚ)
        | MutationType.node => (1 - p) / (m.node_mutation_methods.length : ℚ)) ∘
        fun s => (s, MutationType.node))).sum =
      m.node_mutation_methods.length * ((1 - p) / m.node_mutation_methods.length) := by
    exact sum_map_const_rat _ _
  rw [hlayer, hnode]
  split_ifs with hL hN hN
  · simp [hL, hN]
  · simp only [hL, Nat.cast_zero, zero_mul, zero_add]
    rw [mul_div_cancel₀]
    exact Nat.cast_ne_zero.mpr hN
  · simp only [hN, Nat.cast_zero, zero_mul, add_zero]
    rw [mul_div_cancel₀]
    exact Nat.cast_ne_zero.mpr hL
  · rw [mul_div_cancel₀, mul_div_cancel₀]
    · exact Nat.cast_ne_zero.mpr hN
    · exact Nat.cast_ne_zero.mpr hL

/-- Witness for C10 at a concrete module and probability. -/
theorem get_mutation_probs_sum_witness :
    (EvolvableModule.get_mutation_probs ⟨["add_layer", "remove_layer"], ["add_node"]⟩
      (1/4)).sum = 1 := by
  have h := get_mutation_probs_sum ⟨["add_layer", "remove_layer"], ["add_node"]⟩ (1/4)
    (by norm_num) (by norm_num)
  rw [h]
  norm_num

/-! ### Claim C9 -/

/-- C9: with more than one distinct candidate activation configured, the
activation picked by the (spec-modelled) activation mutation lies in the
candidate set and differs from the current activation; with exactly one
candidate, the current activation may be re-selected (witnessed by the
singleton pool). -/
theorem pick_new_activation_differs (sel : List String) (cur : String) (r : Nat)
    (hlen : 1 < sel.length) (hnd : sel.Nodup) :
    (pickNewActivation sel cur r ∈ sel ∧ pickNewActivation sel cur r ≠ cur) ∧
    pickNewActivation ["ReLU"] "ReLU" 0 = "ReLU" := by
  refine ⟨?_, by rfl⟩
  have hpool : pickNewActivation sel cur r =
      (sel.filter (fun a => a ≠ cur)).getD
        (r % (sel.filter (fun a => a ≠ cur)).length) cur := by
    rw [pickNewActivation]
    simp only [if_pos hlen]
  have hposlen : 0 < (sel.filter (fun a => a ≠ cur)).length := by
    have h0 : 0 < sel.length := by omega
    have h1 : 1 < sel.length := hlen
    have hne01 : sel[0] ≠ sel[1] := by
      intro heq
      have := (hnd.getElem_inj_iff).mp heq
      omega
    by_cases hc : sel[0] = cur
    · have hmem1 : sel[1] ∈ sel.filter (fun a => a ≠ cur) := by
        apply List.mem_filter.mpr
        refine ⟨List.getElem_mem h1, ?_⟩
        simp only [ne_eq, decide_eq_true_eq]
        intro heq
        exact hne01 (hc.trans heq.symm)
      exact List.length_pos.mpr (List.ne_nil_of_mem hmem1)
    · have hmem0 : sel[0] ∈ sel.filter (fun a => a ≠ cur) := by
        apply List.mem_filter.mpr
        refine ⟨List.getElem_mem h0, ?_⟩
        simp only [ne_eq, decide_eq_true_eq]
        exact hc
      exact List.length_pos.mpr (List.ne_nil_of_mem hmem0)
  have hltlen : r % (sel.filter (fun a => a ≠ cur)).length <
      (sel.filter (fun a => a ≠ cur)).length := Nat.mod_lt _ hposlen
  rw [hpool, List.getD_eq_getElem _ _ hltlen]
  have hmem := List.getElem_mem hltlen
  have hprop := List.mem_filter.mp hmem
  refine ⟨hprop.1, ?_⟩
  have := hprop.2
  simpa using this

/-- Witness for C9 at a concrete candidate set. -/
theorem pick_new_activation_differs_witness :
    (pickNewActivation ["Tanh", "ReLU"] "ReLU" 0 ∈ (["Tanh", "ReLU"] : List String) ∧
      pickNewActivation ["Tanh", "ReLU"] "ReLU" 0 ≠ "ReLU") ∧
    pickNewActivation ["ReLU"] "ReLU" 0 = "ReLU" :=
  pick_new_activation_differs ["Tanh", "ReLU"] "ReLU" 0 (by decide) (by decide)

/-! ### Claim C6 -/

/-- C6: `_tournament` returns the drawn index whose rank value is highest
among the draws (the first such draw on ties), so the winner's value is
greater than or equal to that of every other sampled competitor. -/
theorem tournament_winner_spec (ts : TournamentSelection) (fv : List Nat)
    (sel : List Nat) (hlen : sel.length = ts.tournament_size.toNat)
    (hpos : 0 < ts.tournament_size)
    (hin : ∀ i ∈ sel, i < fv.length) :
    ∃ m, m < sel.length ∧ ts._tournament fv sel = sel.getD m 0 ∧
      (∀ j, j < sel.length →
        fv.getD (sel.getD j 0) 0 ≤ fv.getD (sel.getD m 0) 0) ∧
      ∀ j, j < m → fv.getD (sel.getD j 0) 0 < fv.getD (sel.getD m 0) 0 := by
  have hselne : sel ≠ [] := by
    intro h
    rw [h] at hlen
    simp at hlen
    omega
  set values := sel.map (fun i => fv.getD i (default : Nat)) with hv
  have hvne : values ≠ [] := by
    rw [hv]
    simpa using hselne
  have hvlen : values.length = sel.length := by rw [hv]; simp
  refine ⟨argmaxIdx values, ?_, ?_, ?_, ?_⟩
  · rw [← hvlen]
    exact argmaxIdx_lt_length values hvne
  · rfl
  · intro j hj
    have hj' : j < values.length := by omega
    have hm' : argmaxIdx values < values.length := argmaxIdx_lt_length values hvne
    have h := argmaxIdx_is_max values j hj'
    rw [hv, getD_map_of_lt _ _ j (by omega) 0 (default : Nat),
      getD_map_of_lt _ _ (argmaxIdx values) (by omega) 0 (default : Nat)] at h
    exact h
  · intro j hjm
    have hm' : argmaxIdx values < values.length := argmaxIdx_lt_length values hvne
    have h := argmaxIdx_first values j hjm
    rw [hv, getD_map_of_lt _ _ j (by omega) 0 (default : Nat),
      getD_map_of_lt _ _ (argmaxIdx values) (by omega) 0 (default : Nat)] at h
    exact h

/-- Witness for C6 at a concrete rank array and draw vector. -/
theorem tournament_winner_spec_witness :
    ∃ m, m < ([1, 2] : List Nat).length ∧
      TournamentSelection._tournament ⟨2, true, 4, 1⟩ [2, 0, 1] [1, 2] =
        ([1, 2] : List Nat).getD m 0 ∧
      (∀ j, j < ([1, 2] : List Nat).length →
        ([2, 0, 1] : List Nat).getD (([1, 2] : List Nat).getD j 0) 0 ≤
          ([2, 0, 1] : List Nat).getD (([1, 2] : List Nat).getD m 0) 0) ∧
      ∀ j, j < m →
        ([2, 0, 1] : List Nat).getD (([1, 2] : List Nat).getD j 0) 0 <
          ([2, 0, 1] : List Nat).getD (([1, 2] : List Nat).getD m 0) 0 :=
  tournament_winner_spec ⟨2, true, 4, 1⟩ [2, 0, 1] [1, 2] (by decide) (by decide)
    (by decide)

/-! ### Claim C4 -/

/-- C4: for every non-empty input population, whatever its length and the
elitism flag, the new population returned by `select` has length exactly
`population_size`. -/
theorem select_length (ts : TournamentSelection) (pop : List Individual)
    (draws : Nat → List Nat) (hne : pop ≠ []) (hpos : 0 < ts.population_size) :
    (ts.select pop draws).2.length = ts.population_size.toNat := by
  have htn : 0 < ts.population_size.toNat := by omega
  simp only [TournamentSelection.select]
  cases helit : ts.elitism <;> (simp [helit]; try omega)

/-- Witness for C4 at a concrete population of length 3 with
`population_size = 4`. -/
theorem select_length_witness :
    (TournamentSelection.select ⟨2, true, 4, 1⟩
      [⟨5, [1]⟩, ⟨7, [3]⟩, ⟨6, [2]⟩] (fun _ => [0, 2])).2.length = 4 := by
  have h := select_length ⟨2, true, 4, 1⟩ [⟨5, [1]⟩, ⟨7, [3]⟩, ⟨6, [2]⟩]
    (fun _ => [0, 2]) (by simp) (by decide)
  simpa using h

/-! ### Claim C5 -/

theorem le_maxId (pop : List Individual) (ind : Individual) (h : ind ∈ pop) :
    ind.index ≤ maxId pop := by
  induction pop with
  | nil => cases h
  | cons a t ih =>
    have hstep : maxId (a :: t) = max a.index (maxId t) := rfl
    rcases List.mem_cons.mp h with rfl | hmem
    · rw [hstep]
      exact le_max_left _ _
    · rw [hstep]
      exact le_trans (ih hmem) (le_max_right _ _)

/-- C5: every tournament-produced offspring of `select` is cloned with a
freshly allocated index — the `k`-th offspring receives
`max input index + k + 1` — so offspring indices are pairwise distinct and
strictly greater than every index in the input population. -/
theorem offspring_fresh_indices (ts : TournamentSelection)
    (pop : List Individual) (draws : Nat → List Nat) (hne : pop ≠ []) :
    (∀ k, k < ((ts.select pop draws).2.drop (if ts.elitism then 1 else 0)).length →
      (((ts.select pop draws).2.drop (if ts.elitism then 1 else 0)).getD k
        default).index = maxId pop + k + 1) ∧
    (∀ k1 k2, k1 < k2 →
      k2 < ((ts.select pop draws).2.drop (if ts.elitism then 1 else 0)).length →
      (((ts.select pop draws).2.drop (if ts.elitism then 1 else 0)).getD k1
        default).index ≠
      (((ts.select pop draws).2.drop (if ts.elitism then 1 else 0)).getD k2
        default).index) ∧
    ∀ k, k < ((ts.select pop draws).2.drop (if ts.elitism then 1 else 0)).length →
      ∀ ind ∈ pop, ind.index <
        (((ts.select pop draws).2.drop (if ts.elitism then 1 else 0)).getD k
          default).index := by
  have hdrop : (ts.select pop draws).2.drop (if ts.elitism then 1 else 0) =
      (List.range (if ts.elitism then ts.population_size.toNat - 1
        else ts.population_size.toNat)).map fun k =>
          cloneWithIndex
            (pop.getD (ts._tournament (ts._elitism pop).2.1 (draws k)) default)
            ((ts._elitism pop).2.2 + k + 1) := by
    simp only [TournamentSelection.select]
    cases helit : ts.elitism <;> simp [helit]
  have hidx : ∀ k, k < ((ts.select pop draws).2.drop
      (if ts.elitism then 1 else 0)).length →
      (((ts.select pop draws).2.drop (if ts.elitism then 1 else 0)).getD k
        default).index = maxId pop + k + 1 := by
    intro k hk
    rw [hdrop] at hk ⊢
    rw [List.length_map, List.length_range] at hk
    rw [getD_map_of_lt _ _ k (by simpa using hk) 0 default]
    have hrg : (List.range (if ts.elitism then ts.population_size.toNat - 1
        else ts.population_size.toNat)).getD k 0 = k := by
      rw [List.getD_eq_getElem _ _ (by simpa using hk)]
      simp
    rw [hrg]
    have hmaxid : (ts._elitism pop).2.2 = maxId pop := rfl
    rw [cloneWithIndex, hmaxid]
  refine ⟨hidx, ?_, ?_⟩
  · intro k1 k2 h12 hk2
    rw [hidx k1 (by omega), hidx k2 hk2]
    omega
  · intro k hk ind hmem
    rw [hidx k hk]
    have := le_maxId pop ind hmem
    omega

/-- Witness for C5 at a concrete population: the first offspring receives
index `max input index + 1`. -/
theorem offspring_fresh_indices_witness :
    (((TournamentSelection.select ⟨2, true, 4, 1⟩
        [⟨5, [1]⟩, ⟨7, [3]⟩, ⟨6, [2]⟩] (fun _ => [0, 2])).2.drop
      (if (⟨2, true, 4, 1⟩ : TournamentSelection).elitism then 1 else 0)).getD 0
        default).index = maxId [⟨5, [1]⟩, ⟨7, [3]⟩, ⟨6, [2]⟩] + 0 + 1 :=
  (offspring_fresh_indices ⟨2, true, 4, 1⟩ [⟨5, [1]⟩, ⟨7, [3]⟩, ⟨6, [2]⟩]
    (fun _ => [0, 2]) (by simp)).1 0 (by simp [TournamentSelection.select])

/-! ### Claim C1 -/

theorem sliceCond_eq_inOverlap (o n idx : List Nat) (h : o.length = n.length) :
    sliceCond o n idx = inOverlap o n idx := by
  rw [sliceCond, inOverlap, h, min_self]

theorem preserve_getD (old_net new_net : Net) (k : Nat) (hk : k < new_net.length)
    (key : String) (newT oldT : Tensor)
    (hkey : new_net.getD k default = (key, newT))
    (hfind : findParam old_net key = some oldT) :
    (preserve_parameters old_net new_net).getD k default =
      (key, preserveParam key oldT newT) := by
  rw [preserve_parameters, getD_map_of_lt _ _ k hk default default, hkey]
  simp only [hfind]

/-- C1: for every parameter present in both networks (the source pairs
dimensions positionally, so the two shapes have equal rank),
`preserve_parameters` keeps the name and new shape and fills values as
follows — identical shapes copy the old values verbatim; differing shapes
with a name not containing `"norm"` copy the old values exactly on the
overlap box (the first `min(old_size_d, new_size_d)` indices along every
dimension `d`) and keep the freshly initialized values elsewhere;
differing shapes with a name containing `"norm"` keep the freshly
initialized values everywhere. -/
theorem preserve_parameters_spec (old_net new_net : Net) (k : Nat)
    (hk : k < new_net.length) (key : String) (newT oldT : Tensor)
    (hkey : new_net.getD k default = (key, newT))
    (hfind : findParam old_net key = some oldT)
    (hrank : oldT.shape.length = newT.shape.length) :
    ((preserve_parameters old_net new_net).getD k default).1 = key ∧
    ((preserve_parameters old_net new_net).getD k default).2.shape = newT.shape ∧
    ∀ idx, ((preserve_parameters old_net new_net).getD k default).2.data idx =
      if oldT.shape = newT.shape then oldT.data idx
      else if containsNorm key then newT.data idx
      else if inOverlap oldT.shape newT.shape idx then oldT.data idx
      else newT.data idx := by
  rw [preserve_getD old_net new_net k hk key newT oldT hkey hfind]
  refine ⟨rfl, ?_, ?_⟩
  · rw [preserveParam]
    split_ifs <;> rfl
  · intro idx
    rw [preserveParam]
    by_cases hsh : oldT.shape = newT.shape
    · rw [if_pos hsh, if_pos hsh]
    · rw [if_neg hsh, if_neg hsh]
      by_cases hn : containsNorm key = true
      · rw [if_pos hn, if_pos hn]
      · rw [if_neg hn, if_neg hn]
        simp only
        rw [sliceCond_eq_inOverlap _ _ _ hrank]

/-- Witness for C1 on a pair of single-parameter networks whose shared
parameter grows from shape `[2]` to shape `[3]`. -/
theorem preserve_parameters_spec_witness :
    ((preserve_parameters [("w", ⟨[2], fun _ => 1⟩)]
        [("w", ⟨[3], fun _ => 2⟩)]).getD 0 default).1 = "w" ∧
    ((preserve_parameters [("w", ⟨[2], fun _ => 1⟩)]
        [("w", ⟨[3], fun _ => 2⟩)]).getD 0 default).2.shape =
      (⟨[3], fun _ => 2⟩ : Tensor).shape ∧
    ∀ idx, ((preserve_parameters [("w", ⟨[2], fun _ => 1⟩)]
        [("w", ⟨[3], fun _ => 2⟩)]).getD 0 default).2.data idx =
      if (⟨[2], fun _ => (1 : ℚ)⟩ : Tensor).shape =
          (⟨[3], fun _ => (2 : ℚ)⟩ : Tensor).shape then
        (⟨[2], fun _ => (1 : ℚ)⟩ : Tensor).data idx
      else if containsNorm "w" then (⟨[3], fun _ => (2 : ℚ)⟩ : Tensor).data idx
      else if inOverlap (⟨[2], fun _ => (1 : ℚ)⟩ : Tensor).shape
          (⟨[3], fun _ => (2 : ℚ)⟩ : Tensor).shape idx then
        (⟨[2], fun _ => (1 : ℚ)⟩ : Tensor).data idx
      else (⟨[3], fun _ => (2 : ℚ)⟩ : Tensor).data idx :=
  preserve_parameters_spec [("w", ⟨[2], fun _ => 1⟩)] [("w", ⟨[3], fun _ => 2⟩)]
    0 (by decide) "w" ⟨[3], fun _ => 2⟩ ⟨[2], fun _ => 1⟩ rfl rfl rfl

/-! ### Claim C2 -/



/-- C2 counterexample: on a rank-3 parameter whose third dimension shrinks,
the growth-oriented `preserve_parameters` assigns the old value on the
(non-empty) overlap, while `shrink_preserve_parameters` — which slices only
the first two dimensions — raises (`param.data[:1, :1]` of shape
`(1, 1, 2)` cannot receive a source of shape `(1, 1, 3)`); the two
variants therefore do not agree on the overlap for all shape
combinations. -/
theorem shrink_raises_on_trailing_mismatch :
    shrink_preserve_parameters rank3OldNet rank3NewNet = none ∧
    inOverlap [1, 1, 3] [1, 1, 2] [0, 0, 0] = true ∧
    containsNorm "w" = false ∧
    ((preserve_parameters rank3OldNet rank3NewNet).getD 0 default).2.data
      [0, 0, 0] = 1 :=
  ⟨rfl, by decide, by decide, rfl⟩

theorem mapM_option_getD {α β : Type} [Inhabited α] [Inhabited β]
    (f : α → Option β) :
    ∀ (l : List α) (r : List β), l.mapM f = some r →
      r.length = l.length ∧
      ∀ k, k < l.length → f (l.getD k default) = some (r.getD k default)
  | [], r, h => by
    simp only [List.mapM_nil, Option.pure_def, Option.some.injEq] at h
    subst h
    exact ⟨rfl, fun k hk => absurd hk (by simp)⟩
  | a :: t, r, h => by
    rw [List.mapM_cons] at h
    cases hfa : f a with
    | none => rw [hfa] at h; simp at h
    | some b =>
      rw [hfa] at h
      cases hft : t.mapM f with
      | none => rw [hft] at h; simp at h
      | some bs =>
        rw [hft] at h
        simp at h
        subst h
        have ih := mapM_option_getD f t bs hft
        refine ⟨by simp [ih.1], ?_⟩
        intro k hk
        match k with
        | 0 => simpa using hfa
        | k' + 1 =>
          simp only [List.getD_cons_succ]
          exact ih.2 k' (by simpa using hk)

theorem inOverlap_getD (o n idx : List Nat) (h : inOverlap o n idx = true)
    (d : Nat) (hd : d < n.length) :
    idx.getD d 0 < min (o.getD d 0) (n.getD d 0) := by
  rw [inOverlap, List.all_eq_true] at h
  have := h d (List.mem_range.mpr hd)
  simpa using this

theorem broadcastIdx_eq_of_overlap (o n idx : List Nat)
    (hrank : o.length = n.length)
    (hov : inOverlap o n idx = true) :
    broadcastIdx o idx = idx := by
  apply List.ext_getElem
  · simp [broadcastIdx]
  · intro d h1 h2
    simp only [broadcastIdx, List.getElem_mapIdx]
    by_cases hc : 2 ≤ d ∧ o.getD d 0 = 1
    · rw [if_pos hc]
      by_cases hd : d < n.length
      · have := inOverlap_getD o n idx hov d hd
        rw [hc.2] at this
        have hidx : idx.getD d 0 = 0 := by omega
        rw [List.getD_eq_getElem _ _ h2] at hidx
        omega
      · exfalso
        have : o.getD d 0 = 0 := List.getD_eq_default _ _ (by omega)
        omega
    · rw [if_neg hc]

theorem shrinkParam_agrees (key : String) (oldT newT rT : Tensor)
    (h : shrinkParam key oldT newT = some rT)
    (idx : List Nat) (hov : inOverlap oldT.shape newT.shape idx = true) :
    rT.data idx = (preserveParam key oldT newT).data idx ∧
    (containsNorm key = false → rT.data idx = oldT.data idx) := by
  rw [shrinkParam] at h
  by_cases hsh : oldT.shape = newT.shape
  · rw [if_pos hsh] at h
    obtain rfl := Option.some_inj.mp h
    rw [preserveParam, if_pos hsh]
    exact ⟨rfl, fun _ => rfl⟩
  · rw [if_neg hsh] at h
    by_cases hn : containsNorm key = true
    · rw [if_pos hn] at h
      obtain rfl := Option.some_inj.mp h
      rw [preserveParam, if_neg hsh, if_pos hn]
      exact ⟨rfl, fun hf => absurd (hn.symm.trans hf) (by simp)⟩
    · rw [if_neg hn] at h
      by_cases hlen : oldT.shape.length = newT.shape.length ∧ 1 ≤ newT.shape.length
      · rw [if_pos hlen] at h
        have hslice : sliceCond oldT.shape newT.shape idx = true := by
          rw [sliceCond_eq_inOverlap _ _ _ hlen.1]
          exact hov
        have hpres : (preserveParam key oldT newT).data idx = oldT.data idx := by
          rw [preserveParam, if_neg hsh, if_neg hn]
          simp only
          rw [if_pos hslice]
        have hc0 : idx.getD 0 0 <
            min (oldT.shape.getD 0 0) (newT.shape.getD 0 0) :=
          inOverlap_getD _ _ _ hov 0 (by omega)
        by_cases h1 : newT.shape.length = 1
        · rw [if_pos h1] at h
          obtain rfl := Option.some_inj.mp h
          refine ⟨?_, fun _ => ?_⟩ <;>
            · show (if idx.getD 0 0 <
                  min (oldT.shape.getD 0 0) (newT.shape.getD 0 0) then
                    oldT.data idx else newT.data idx) = _
              rw [if_pos hc0]
              try rw [hpres]
        · rw [if_neg h1] at h
          by_cases hbc : ((List.range newT.shape.length).all
              (fun d => d < 2 ∨ oldT.shape.getD d 0 = newT.shape.getD d 0 ∨
                oldT.shape.getD d 0 = 1)) = true
          · rw [if_pos hbc] at h
            obtain rfl := Option.some_inj.mp h
            have hc1 : idx.getD 1 0 <
                min (oldT.shape.getD 1 0) (newT.shape.getD 1 0) :=
              inOverlap_getD _ _ _ hov 1 (by omega)
            have hbi : broadcastIdx oldT.shape idx = idx :=
              broadcastIdx_eq_of_overlap _ _ _ hlen.1 hov
            refine ⟨?_, fun _ => ?_⟩ <;>
              · show (if idx.getD 0 0 <
                    min (oldT.shape.getD 0 0) (newT.shape.getD 0 0) ∧
                    idx.getD 1 0 <
                    min (oldT.shape.getD 1 0) (newT.shape.getD 1 0) then
                      oldT.data (broadcastIdx oldT.shape idx)
                    else newT.data idx) = _
                rw [if_pos ⟨hc0, hc1⟩, hbi]
                try rw [hpres]
          · rw [if_neg hbc] at h
            cases h
      · rw [if_neg hlen] at h
        cases h

/-- C2 (amended): whenever `shrink_preserve_parameters` completes without
raising — in particular for all parameters of rank at most 2, and for
higher-rank parameters whose dimensions beyond the first two are
broadcast-compatible — it and `preserve_parameters` assign bit-identical
values on the overlap box of every shared parameter (both equal to the old
value whenever the name does not contain `"norm"`). -/
theorem shrink_agrees_with_preserve (old_net new_net res : Net)
    (hres : shrink_preserve_parameters old_net new_net = some res)
    (k : Nat) (hk : k < new_net.length) (key : String) (newT oldT : Tensor)
    (hkey : new_net.getD k default = (key, newT))
    (hfind : findParam old_net key = some oldT)
    (idx : List Nat) (hov : inOverlap oldT.shape newT.shape idx = true) :
    (res.getD k default).2.data idx =
      ((preserve_parameters old_net new_net).getD k default).2.data idx ∧
    (containsNorm key = false →
      (res.getD k default).2.data idx = oldT.data idx) := by
  have hm := mapM_option_getD _ new_net res hres
  have hf := hm.2 k hk
  rw [hkey] at hf
  simp only [hfind] at hf
  cases hsp : shrinkParam key oldT newT with
  | none =>
    rw [hsp] at hf
    simp at hf
  | some rT =>
    rw [hsp] at hf
    simp only [Option.map_some'] at hf
    have hagree := shrinkParam_agrees key oldT newT rT hsp idx hov
    rw [preserve_getD old_net new_net k hk key newT oldT hkey hfind]
    have hrd : (res.getD k default).2 = rT := by
      rw [← Option.some_inj.mp hf]
    rw [hrd]
    exact ⟨hagree.1, hagree.2⟩




/-- Witness for the amended C2 on a rank-1 parameter shrinking from
`[3]` to `[2]`, at overlap index `[0]`. -/
theorem shrink_agrees_with_preserve_witness :
    ((rank1ShrinkRes.getD 0 default).2.data [0] =
      ((preserve_parameters rank1OldNet rank1NewNet).getD 0 default).2.data [0]) ∧
    (containsNorm "w" = false →
      (rank1ShrinkRes.getD 0 default).2.data [0] =
        (⟨[3], fun _ => 1⟩ : Tensor).data [0]) :=
  shrink_agrees_with_preserve rank1OldNet rank1NewNet rank1ShrinkRes rfl
    0 (by decide) "w" ⟨[2], fun _ => 2⟩ ⟨[3], fun _ => 1⟩ rfl rfl [0] (by decide)

/-! ### Claim C3 -/

theorem getLastD_eq_getD {γ : Type} (l : List γ) (d : γ) :
    l.getLastD d = l.getD (l.length - 1) d := by
  rw [List.getLastD_eq_getLast?, List.getLast?_eq_getElem?,
    List.getD_eq_getElem?_getD]

theorem triple_argsort_lt {α : Type} [LinearOrder α] [Inhabited α]
    (S : List α) (hne : S ≠ []) :
    (argsort (argsort (argsort S))).getLastD 0 < S.length := by
  have hn : 0 < S.length := List.length_pos.mpr hne
  have hA : (argsort S).length = S.length := length_argsort S
  have hrk : (argsort (argsort S)).length = S.length := by
    rw [length_argsort, hA]
  have hB : (argsort (argsort (argsort S))).length = S.length := by
    rw [length_argsort, hrk]
  rw [getLastD_eq_getD, hB]
  have := argsort_getD_lt (argsort (argsort S)) (S.length - 1) (by omega)
  omega

theorem triple_argsort_max {α : Type} [LinearOrder α] [Inhabited α]
    (S : List α) (hne : S ≠ []) (j : Nat) (hj : j < S.length) :
    S.getD j default ≤
      S.getD ((argsort (argsort (argsort S))).getLastD 0) default := by
  have hn : 0 < S.length := List.length_pos.mpr hne
  have hA : (argsort S).length = S.length := length_argsort S
  have hrk : (argsort (argsort S)).length = S.length := by
    rw [length_argsort, hA]
  have hB : (argsort (argsort (argsort S))).length = S.length := by
    rw [length_argsort, hrk]
  rw [getLastD_eq_getD, hB]
  have hd0 : (default : Nat) = 0 := rfl
  have hmlt : (argsort (argsort (argsort S))).getD (S.length - 1) 0 < S.length := by
    have := argsort_getD_lt (argsort (argsort S)) (S.length - 1) (by omega)
    omega
  have hrankm : ∀ jj, jj < S.length →
      (argsort (argsort S)).getD jj 0 ≤
        (argsort (argsort S)).getD
          ((argsort (argsort (argsort S))).getD (S.length - 1) 0) 0 := by
    intro jj hjj
    obtain ⟨a, ha, hBa⟩ := argsort_surj (argsort (argsort S)) jj (by omega)
    have hmono := argsort_mono (argsort (argsort S)) a (S.length - 1)
      (by omega) (by omega)
    rw [hBa, hd0] at hmono
    exact hmono
  have hinv : ∀ k, k < S.length →
      (argsort S).getD ((argsort (argsort S)).getD k 0) 0 = k := by
    intro k hk
    have hp : List.Perm (argsort S) (List.range (argsort S).length) := by
      rw [hA]
      exact argsort_perm S
    exact argsort_inverse (argsort S) hp k (by omega)
  have hrkv : ∀ k, k < S.length → (argsort (argsort S)).getD k 0 < S.length := by
    intro k hk
    have := argsort_getD_lt (argsort S) k (by omega)
    omega
  have h1 : (argsort S).getD ((argsort (argsort S)).getD j 0) 0 = j := hinv j hj
  have h2 : (argsort S).getD ((argsort (argsort S)).getD
      ((argsort (argsort (argsort S))).getD (S.length - 1) 0) 0) 0 =
      (argsort (argsort (argsort S))).getD (S.length - 1) 0 := hinv _ hmlt
  have h3 := argsort_mono S ((argsort (argsort S)).getD j 0)
    ((argsort (argsort S)).getD
      ((argsort (argsort (argsort S))).getD (S.length - 1) 0) 0)
    (hrankm j hj) (hrkv _ hmlt)
  rw [h1, h2] at h3
  exact h3

set_option maxHeartbeats 1000000 in
/-- C3: for every non-empty population (each individual carrying at least
`eval_loop` fitness entries), `select` returns as elite a clone of an
individual whose mean of the last `eval_loop` fitness values is maximal
(the individual at position `np.argsort(rank)[-1]` of the double-argsort
ranking), and with elitism enabled the first element of the new population
is a clone of that same elite. -/
theorem select_elite_best (ts : TournamentSelection) (pop : List Individual)
    (draws : Nat → List Nat) (hne : pop ≠ [])
    (hfit : ∀ ind ∈ pop, ts.eval_loop.toNat ≤ ind.fitness.length) :
    ∃ m, m < pop.length ∧
      (ts.select pop draws).1 = clone (pop.getD m default) ∧
      (∀ j, j < pop.length →
        meanLast ts.eval_loop (pop.getD j default).fitness ≤
          meanLast ts.eval_loop (pop.getD m default).fitness) ∧
      (ts.elitism = true →
        (ts.select pop draws).2.getD 0 default =
          clone ((ts.select pop draws).1)) := by
  have hSne : pop.map (fun indi => meanLast ts.eval_loop indi.fitness) ≠ [] := by
    simpa using hne
  have hSlen : (pop.map (fun indi => meanLast ts.eval_loop indi.fitness)).length =
      pop.length := by simp
  have hmlt := triple_argsort_lt
    (pop.map fun indi => meanLast ts.eval_loop indi.fitness) hSne
  have helite : (ts.select pop draws).1 =
      clone (pop.getD ((argsort (argsort (argsort (pop.map fun indi =>
        meanLast ts.eval_loop indi.fitness)))).getLastD 0) default) := by
    simp only [TournamentSelection.select, TournamentSelection._elitism]
  refine ⟨_, ?_, helite, ?_, ?_⟩
  · omega
  · intro j hj
    have h := triple_argsort_max
      (pop.map fun indi => meanLast ts.eval_loop indi.fitness) hSne j (by omega)
    rw [getD_map_of_lt _ _ j (by omega) default default,
      getD_map_of_lt _ _ _ (by omega) default default] at h
    exact h
  · intro helit
    simp only [TournamentSelection.select, helit, if_true]
    rfl

/-- Witness for C3 at a concrete population of three individuals. -/
theorem select_elite_best_witness :
    ∃ m, m < ([⟨5, [1]⟩, ⟨7, [3]⟩, ⟨6, [2]⟩] : List Individual).length ∧
      (TournamentSelection.select ⟨2, true, 3, 1⟩
        [⟨5, [1]⟩, ⟨7, [3]⟩, ⟨6, [2]⟩] (fun _ => [0, 2])).1 =
        clone (([⟨5, [1]⟩, ⟨7, [3]⟩, ⟨6, [2]⟩] : List Individual).getD m default) ∧
      (∀ j, j < ([⟨5, [1]⟩, ⟨7, [3]⟩, ⟨6, [2]⟩] : List Individual).length →
        meanLast 1 (([⟨5, [1]⟩, ⟨7, [3]⟩, ⟨6, [2]⟩] : List Individual).getD j
          default).fitness ≤
        meanLast 1 (([⟨5, [1]⟩, ⟨7, [3]⟩, ⟨6, [2]⟩] : List Individual).getD m
          default).fitness) ∧
      ((⟨2, true, 3, 1⟩ : TournamentSelection).elitism = true →
        (TournamentSelection.select ⟨2, true, 3, 1⟩
          [⟨5, [1]⟩, ⟨7, [3]⟩, ⟨6, [2]⟩] (fun _ => [0, 2])).2.getD 0 default =
        clone ((TournamentSelection.select ⟨2, true, 3, 1⟩
          [⟨5, [1]⟩, ⟨7, [3]⟩, ⟨6, [2]⟩] (fun _ => [0, 2])).1)) :=
  select_elite_best ⟨2, true, 3, 1⟩ [⟨5, [1]⟩, ⟨7, [3]⟩, ⟨6, [2]⟩]
    (fun _ => [0, 2]) (by simp)
    (by
      intro ind h
      rcases List.mem_cons.mp h with rfl | h
      · simp
      rcases List.mem_cons.mp h with rfl | h
      · simp
      rcases List.mem_cons.mp h with rfl | h
      · simp
      · cases h)
